import Mathlib

/-!
# The allocation / recovery harness `tsj.c` (xpa-2.1.15)

A shallow embedding of `main` of `tsj.c`.  The C function is a loop built from a label,
`setjmp` and a `goto`:

* `loop:` increments the `char` counter `iter`, then `setjmp(env)` is evaluated;
* on the direct return (`0`) the program prompts, reads a line with `fgets`, and either
  leaves (`return 0`) or runs the allocation loop `for(n=0; n<MAXB; n++)`;
* when the saved continuation is triggered, `setjmp` returns a second time with a non-zero
  value: the `else` branch runs the release loop `for(i=0; i<n+1; i++)`, resets `n`,
  prints a notice and jumps back to `loop`.

The locals of `main` live in memory (the program is built with `gcc -g`, no optimisation),
so `n`, `tbuf` and `bufs` keep across the jump the values they had when it was taken.

What is outside `tsj.c` is the environment of the model:

* the contents of standard input, a list of characters;
* the contents of the uninitialised locals `tbuf` and `bufs` at program start;
* for each pass, the point of the allocation loop at which the continuation is triggered;
* the allocator `xmalloc` / `xfree`, which lives in the xpa library.  `xfree` is given a
  behaviour on live blocks only: a call on any other word does not return, and the run of
  `main` stops there.
-/

namespace Tsj

/-- The macro `MAXB`: number of entries of the buffer table. -/
def MAXB : Nat := 1024

/-- The macro `GB`: `1024 * 1024 * 1024`, the size of one buffer. -/
def GB : Nat := 1024 * 1024 * 1024

/-- What `main` does that is visible from outside, in program order. -/
inductive Event where
  /-- The call `fprintf(stdout, "continue? ")`. -/
  | prompt
  /-- The call `fprintf(stdout, "exiting ...\n")`. -/
  | exiting
  /-- The call `fprintf(stderr, "allocating ...\n")`. -/
  | allocating
  /-- The call `fprintf(stderr, "%d\n", n)`. -/
  | report (n : Nat)
  /-- The call `fprintf(stderr, "freed up memory for next iteration\n")`. -/
  | freed
  /-- The call `xmalloc(size)` returned handle `h`. -/
  | xmalloc (size : Nat) (h : Nat)
  /-- The call `memset(h, c, len)`. -/
  | memset (h : Nat) (c : Nat) (len : Nat)
  /-- The release loop evaluated `bufs[i]`. -/
  | load (i : Nat)
  /-- The call `xfree(bufs[i])`, where `bufs[i]` held `h`; recorded whether or not the call
  returns. -/
  | xfree (i : Nat) (h : Nat)
  /-- The saved continuation was taken: `setjmp` returns non-zero. -/
  | longjmp
  deriving DecidableEq, Repr

/-- File descriptor and text of an event that writes to a stream (`1` is `stdout`, `2` is
`stderr`). -/
def Event.text : Event → Option (Nat × String)
  | .prompt => some (1, "continue? ")
  | .exiting => some (1, "exiting ...\n")
  | .allocating => some (2, "allocating ...\n")
  | .report n => some (2, toString n ++ "\n")
  | .freed => some (2, "freed up memory for next iteration\n")
  | _ => none

/-- Everything written to stream `fd` by a trace. -/
def written (fd : Nat) : List Event → String
  | [] => ""
  | e :: es =>
    match e.text with
    | some (fd1, t) => if fd1 = fd then t ++ written fd es else written fd es
    | none => written fd es

/-- Modelled from the spec: an agent outside `main` triggers the continuation saved with
`XPASaveJmp` during the allocation phase.  A trigger is the point of the allocation loop at
which that happens; the argument is the value of the loop variable `n` at that moment. -/
inductive Trigger where
  /-- At the top of the loop body, up to and inside the call `xmalloc(GB)` (the call does not
  return); `bufs[n]` has not been assigned in this pass.  With `n = MAXB`: after the last
  `n++`. -/
  | atTop (n : Nat)
  /-- After `bufs[n] = xmalloc(GB)`, before or during the `memset`. -/
  | afterAlloc (n : Nat)
  /-- After `memset(bufs[n], iter, GB)`, before `n++`. -/
  | afterFill (n : Nat)
  deriving DecidableEq, Repr

/-- The trigger names a point the allocation loop really passes through. -/
def Trigger.fires : Trigger → Prop
  | .atTop n => n ≤ MAXB
  | .afterAlloc n => n < MAXB
  | .afterFill n => n < MAXB

instance (t : Trigger) : Decidable t.fires := by
  cases t <;> unfold Trigger.fires <;> infer_instance

/-- The locals of `main`, the environment, and the trace. -/
structure State where
  /-- The local `char iter`, as the value of its byte. -/
  iter : Nat
  /-- The local `int i`. -/
  i : Nat
  /-- The local `int n`. -/
  n : Nat
  /-- The local `char tbuf[100]`. -/
  tbuf : List Char
  /-- The local `char *bufs[MAXB]`, a word per index; `0` is the null pointer.  An index from `MAXB`
  on denotes the word of the stack frame that far behind the start of the table. -/
  bufs : Nat → Nat
  /-- What is left of standard input. -/
  stdin : List Char
  /-- Number of `xmalloc` calls that have returned. -/
  brk : Nat
  /-- The handles returned by `xmalloc` and not released since. -/
  live : List Nat
  /-- Heap contents: byte at an offset of a handle, `none` where nothing was written. -/
  mem : Nat → Nat → Option Nat
  /-- Specification variable (not in the source): number of buffers allocated and filled
  in the current pass.  It is reset wherever the source resets `n`. -/
  progress : Nat
  /-- Events so far, oldest first. -/
  trace : List Event

/-- Append an event to the trace. -/
def emit (s : State) (e : Event) : State :=
  { s with trace := s.trace ++ [e] }

/-- The characters `fgets` takes from the stream when it may store `room` of them: up to and
including the first newline.  Returns them and the rest of the stream. -/
def readLine : Nat → List Char → List Char × List Char
  | 0, rest => ([], rest)
  | _ + 1, [] => ([], [])
  | room + 1, c :: cs =>
    if c = '\n' then ([c], cs)
    else (c :: (readLine room cs).1, (readLine room cs).2)

/-- The library call `fgets(buf, size, stdin)`: the new buffer and the rest of the stream.
When no character could be read the buffer is left as it was. -/
def fgets (buf : List Char) (size : Nat) (input : List Char) : List Char × List Char :=
  match readLine (size - 1) input with
  | ([], rest) => (buf, rest)
  | (c :: l, rest) => ((c :: l) ++ [Char.ofNat 0] ++ buf.drop (l.length + 2), rest)

/-- Modelled from the spec: `xmalloc` (xpa library, declared in the source but defined outside
it) returns a usable region or does not return.  A handle names one allocation: the `c`-th
call that returns yields handle `c`, never null and never handed out again. -/
def xmalloc (size : Nat) (s : State) : Nat × State :=
  (s.brk + 1,
    { s with
      brk := s.brk + 1
      live := (s.brk + 1) :: s.live
      trace := s.trace ++ [.xmalloc size (s.brk + 1)] })

/-- Modelled from the spec: `xfree` (xpa library) frees a valid block.  On a live handle the
call `xfree(bufs[i])` releases it and returns.  On any other word (never returned by
`xmalloc`, or released before) the spec gives the call no behaviour and the C library
aborts: the result is `none`. -/
def xfree (i h : Nat) (s : State) : Option State :=
  if h ∈ s.live then
    some { s with live := s.live.erase h, trace := s.trace ++ [.xfree i h] }
  else none

/-- The library call `memset(h, c, len)`: each of the `len` bytes of the region gets `c`
converted to `unsigned char`. -/
def memset (h c len : Nat) (s : State) : State :=
  { s with
    mem := fun p off => if p = h ∧ off < len then some (c % 256) else s.mem p off
    trace := s.trace ++ [.memset h c len] }

/-- The statement `bufs[n] = (char *)xmalloc(GB);`. -/
def doAlloc (s : State) : State :=
  { (xmalloc GB s).2 with bufs := fun j => if j = s.n then (xmalloc GB s).1 else s.bufs j }

/-- The statement `memset(bufs[n], iter, GB);`, after which one more buffer is allocated and
filled. -/
def doFill (s : State) : State :=
  { memset (s.bufs s.n) s.iter GB s with progress := s.progress + 1 }

/-- How a loop of the model ends. -/
inductive Exit where
  /-- The loop condition became false. -/
  | done
  /-- The recovery continuation was triggered. -/
  | jumped
  /-- A call of `xfree` on a word that is not a live block: the program stops in it. -/
  | aborted
  /-- The model ran out of fuel (never the case with the fuel `main` gives). -/
  | outOfFuel
  deriving DecidableEq, Repr

/-- One full turn of the allocation loop: the three statements of the body, then `n++`. -/
def allocBody (s : State) : State :=
  { emit (doFill (doAlloc s)) (.report s.n) with n := s.n + 1 }

/-- The loop `for(...; n<MAXB; n++)` of the allocation phase, from the current `n`. -/
def allocLoop (trig : Option Trigger) : Nat → State → State × Exit
  | 0, s => (s, .outOfFuel)
  | fuel + 1, s =>
    if trig = some (.atTop s.n) then (s, .jumped)
    else if s.n < MAXB then
      if trig = some (.afterAlloc s.n) then (doAlloc s, .jumped)
      else if trig = some (.afterFill s.n) then (doFill (doAlloc s), .jumped)
      else allocLoop trig fuel (allocBody s)
    else (s, .done)

/-- How one pass through `loop:` ends. -/
inductive Outcome where
  /-- The function `main` returned with this status. -/
  | returned (status : Int)
  /-- Control went back to the `setjmp` with a non-zero value. -/
  | jumped
  /-- The program stopped in a call of `xfree` on a word that is not a live block. -/
  | aborted
  /-- The model ran out of fuel. -/
  | outOfFuel
  deriving DecidableEq, Repr

/-- From `loop:` through the branch `setjmp(env) == 0`: the increment of `iter`, the prompt,
the reply, and after an affirmative reply the allocation phase.  `XPASaveJmp` hands `env` to
the library and changes nothing in `main`. -/
def pass (trig : Option Trigger) (s : State) : State × Outcome :=
  let s1 := emit { s with iter := (s.iter + 1) % 256 } .prompt
  let r := fgets s1.tbuf 99 s1.stdin
  let s2 := { s1 with tbuf := r.1, stdin := r.2 }
  if s2.tbuf.head? ≠ some 'y' then
    (emit s2 .exiting, .returned 0)
  else
    match allocLoop trig (MAXB + 1) { emit s2 .allocating with n := 0, progress := 0 } with
    | (s3, .done) => (s3, .returned 0)
    | (s3, .jumped) => (emit s3 .longjmp, .jumped)
    | (s3, _) => (s3, .outOfFuel)

/-- The loop `for(...; i<n+1; i++) if( bufs[i] ) xfree(bufs[i]);` from the current `i`.
When a call of `xfree` does not return the loop stops with that call as its last event. -/
def releaseLoop : Nat → State → State × Exit
  | 0, s => (s, .outOfFuel)
  | fuel + 1, s =>
    if s.i < s.n + 1 then
      if s.bufs s.i ≠ 0 then
        match xfree s.i (s.bufs s.i) (emit s (.load s.i)) with
        | some s1 => releaseLoop fuel { s1 with i := s.i + 1 }
        | none => (emit (emit s (.load s.i)) (.xfree s.i (s.bufs s.i)), .aborted)
      else
        releaseLoop fuel { emit s (.load s.i) with i := s.i + 1 }
    else (s, .done)

/-- The `else` branch of the `setjmp` test, up to the `goto loop`. -/
def recover (s : State) : State × Exit :=
  match releaseLoop (s.n + 2) { s with i := 0 } with
  | (s1, .done) => (emit { s1 with n := 0, progress := 0 } .freed, .done)
  | r => r

/-- Number of calls `xfree(bufs[i])` in a trace. -/
def freesOf (i : Nat) (tr : List Event) : Nat :=
  tr.countP (fun e => match e with
    | .xfree j _ => decide (j = i)
    | _ => false)

/-- Number of calls of `xfree` in a trace. -/
def frees (tr : List Event) : Nat :=
  tr.countP (fun e => match e with
    | .xfree _ _ => true
    | _ => false)

/-- Number of calls of `xfree` on handle `h` in a trace. -/
def freesOfHandle (h : Nat) (tr : List Event) : Nat :=
  tr.countP (fun e => match e with
    | .xfree _ p => decide (p = h)
    | _ => false)

/-- Number of calls of `xmalloc` that returned handle `h` in a trace. -/
def allocsOfHandle (h : Nat) (tr : List Event) : Nat :=
  tr.countP (fun e => match e with
    | .xmalloc _ p => decide (p = h)
    | _ => false)

/-- Number of calls of `xmalloc` with size `GB` in a trace. -/
def allocs (tr : List Event) : Nat :=
  tr.countP (fun e => match e with
    | .xmalloc size _ => decide (size = GB)
    | _ => false)

/-- The events the allocation loop produces. -/
def Event.isAlloc : Event → Bool
  | .xmalloc _ _ => true
  | .memset _ _ _ => true
  | .report _ => true
  | _ => false

/-- The events the release loop produces. -/
def Event.isRelease : Event → Bool
  | .load _ => true
  | .xfree _ _ => true
  | _ => false

/-- The prompts and the two notices. -/
def Event.isNotice : Event → Bool
  | .prompt => true
  | .freed => true
  | .exiting => true
  | _ => false

/-- The value of the loop variable `n` at which a trigger arrives. -/
def Trigger.index : Trigger → Nat
  | .atTop n => n
  | .afterAlloc n => n
  | .afterFill n => n

/-- The events of the turn of the allocation loop for index `i`, when the allocation phase
started after `c` earlier allocations with the counter at `iter`. -/
def turnEvents (c iter i : Nat) : List Event :=
  [.xmalloc GB (c + i + 1), .memset (c + i + 1) iter GB, .report i]

/-- The events of `k` turns of the release loop from index `a` on, over the table `bufs`. -/
def releaseEvents (bufs : Nat → Nat) : Nat → Nat → List Event
  | _, 0 => []
  | a, k + 1 =>
    (if bufs a ≠ 0 then [.load a, .xfree a (bufs a)] else [.load a])
      ++ releaseEvents bufs (a + 1) k

/-- The state in which the allocation loop is entered after an affirmative reply read in
state `s` at `loop:`. -/
def entered (s : State) : State :=
  { s with
    iter := (s.iter + 1) % 256
    tbuf := (fgets s.tbuf 99 s.stdin).1
    stdin := (fgets s.tbuf 99 s.stdin).2
    n := 0
    progress := 0
    trace := s.trace ++ [.prompt] ++ [.allocating] }

/-- The state in which `main` returns after a negative reply read in state `s` at `loop:`. -/
def declined (s : State) : State :=
  { s with
    iter := (s.iter + 1) % 256
    tbuf := (fgets s.tbuf 99 s.stdin).1
    stdin := (fgets s.tbuf 99 s.stdin).2
    trace := s.trace ++ [.prompt] ++ [.exiting] }

/-- Number of buffers allocated and filled in the pass when a trigger arrives. -/
def Trigger.populated : Trigger → Nat
  | .atTop n => n
  | .afterAlloc n => n
  | .afterFill n => n + 1

/-- The program from `loop:` on.  The list gives, pass by pass, where the continuation is
triggered; when it is used up no further trigger arrives.  The result is the final state
and the way the program ended. -/
def run : List Trigger → State → State × Outcome
  | [], s => pass none s
  | t :: ts, s =>
    match pass (some t) s with
    | (s1, .jumped) =>
      match recover s1 with
      | (s2, .done) => run ts s2
      | (s2, .aborted) => (s2, .aborted)
      | (s2, _) => (s2, .outOfFuel)
    | r => r

/-- The state in which `main` starts: `iter`, `i` and `n` are initialised to zero, `tbuf`
and `bufs` hold whatever the stack held, nothing is allocated. -/
def init (input : List Char) (tbuf0 : List Char) (bufs0 : Nat → Nat) : State :=
  { iter := 0, i := 0, n := 0, tbuf := tbuf0, bufs := bufs0, stdin := input, brk := 0
    live := [], mem := fun _ _ => none, progress := 0, trace := [] }

/-- The program `main`. -/
def main (input : List Char) (tbuf0 : List Char) (bufs0 : Nat → Nat) (trigs : List Trigger) :
    State × Outcome :=
  run trigs (init input tbuf0 bufs0)

/-- The relation `AtEntry j s`: some run of `main` arrives at `loop:` for the `j`-th time in state `s`
(the increment of `iter` not yet done). -/
inductive AtEntry : Nat → State → Prop where
  | start (input tbuf0 : List Char) (bufs0 : Nat → Nat) : AtEntry 1 (init input tbuf0 bufs0)
  | again (j : Nat) (s s2 : State) (t : Trigger) :
      AtEntry j s → (pass (some t) s).2 = .jumped →
      recover (pass (some t) s).1 = (s2, .done) → AtEntry (j + 1) s2

/-- A `tbuf` of a hundred null characters. -/
def zeroBuf : List Char := List.replicate 100 (Char.ofNat 0)

/-- A buffer table (and stack behind it) whose words are all null. -/
def nullTable : Nat → Nat := fun _ => 0

/-- A buffer table (and stack behind it) left with the same non-null word everywhere. -/
def dirtyTable : Nat → Nat := fun _ => 7777

/-- Invariant of the allocation loop at the top of its body. -/
structure AtTop (s : State) : Prop where
  prog : s.progress = s.n
  n_le : s.n ≤ MAXB
  nz : ∀ i, i < s.progress → s.bufs i ≠ 0
  bytes : ∀ i, i < s.progress → ∀ off, off < GB → s.mem (s.bufs i) off = some (s.iter % 256)
  fresh : ∀ i, i < s.progress → s.bufs i ≤ s.brk
  distinct : ∀ i j, i < j → j < s.progress → s.bufs i ≠ s.bufs j
  alive : ∀ i, i < s.progress → s.bufs i ∈ s.live

/-- What holds of the state `r` in which the allocation loop started in `s` stops. -/
structure AllocPost (s r : State) : Prop where
  iter_eq : r.iter = s.iter
  tbuf_eq : r.tbuf = s.tbuf
  stdin_eq : r.stdin = s.stdin
  n_le : r.n ≤ MAXB
  prog_le : r.progress ≤ MAXB
  prog_n : r.progress ≤ r.n + 1
  n_prog : r.n ≤ r.progress
  nz : ∀ i, i < r.progress → r.bufs i ≠ 0
  bytes : ∀ i, i < r.progress → ∀ off, off < GB → r.mem (r.bufs i) off = some (r.iter % 256)
  distinct : ∀ i j, i < j → j < r.progress → r.bufs i ≠ r.bufs j
  alive : ∀ i, i < r.progress → r.bufs i ∈ r.live
  trace : ∃ evs, r.trace = s.trace ++ evs ∧ ∀ e ∈ evs, e.isAlloc = true

/-! ## The line reader -/

theorem readLine_nil (room : Nat) : readLine room [] = ([], []) := by
  cases room <;> rfl

theorem fgets_nil (buf : List Char) (size : Nat) : fgets buf size [] = (buf, []) := by
  simp [fgets, readLine_nil]

theorem fgets_head (buf : List Char) (c : Char) (cs : List Char) :
    (fgets buf 99 (c :: cs)).1.head? = some c := by
  unfold fgets
  show (match readLine 98 (c :: cs) with
    | ([], rest) => (buf, rest)
    | (c :: l, rest) => ((c :: l) ++ [Char.ofNat 0] ++ buf.drop (l.length + 2), rest)).1.head?
      = some c
  by_cases h : c = '\n'
  · simp [readLine, h]
  · simp [readLine, h]

/-! ## The allocation loop -/

theorem AtTop.body (s : State) (h : AtTop s) (hn : s.n < MAXB) : AtTop (allocBody s) := by
  have hp := h.prog
  refine ⟨?_, ?_, ?_, ?_, ?_, ?_, ?_⟩
  · simp [allocBody, doFill, doAlloc, xmalloc, memset, emit, hp]
  · simp [allocBody, doFill, doAlloc, xmalloc, memset, emit]; omega
  · intro i hi
    simp only [allocBody, doFill, doAlloc, xmalloc, memset, emit] at hi ⊢
    by_cases e : i = s.n
    · simp [e]
    · simp only [e, if_false]
      exact h.nz i (by omega)
  · intro i hi off hoff
    simp only [allocBody, doFill, doAlloc, xmalloc, memset, emit] at hi ⊢
    by_cases e : i = s.n
    · simp [e, hoff]
    · simp only [e, if_false, if_true]
      by_cases e2 : s.bufs i = s.brk + 1
      · simp [e2, hoff]
      · simp only [e2, false_and, if_false]
        exact h.bytes i (by omega) off hoff
  · intro i hi
    simp only [allocBody, doFill, doAlloc, xmalloc, memset, emit] at hi ⊢
    by_cases e : i = s.n
    · simp [e]
    · simp only [e, if_false]
      have := h.fresh i (by omega)
      omega
  · intro i j hij hj
    simp only [allocBody, doFill, doAlloc, xmalloc, memset, emit] at hj ⊢
    by_cases e : j = s.n
    · have e1 : i ≠ s.n := by omega
      simp only [e, e1, if_false, if_true]
      have := h.fresh i (by omega)
      omega
    · have e1 : i ≠ s.n := by omega
      simp only [e, e1, if_false]
      exact h.distinct i j hij (by omega)
  · intro i hi
    simp only [allocBody, doFill, doAlloc, xmalloc, memset, emit] at hi ⊢
    by_cases e : i = s.n
    · simp [e]
    · simp only [e, if_false]
      exact List.mem_cons_of_mem _ (h.alive i (by omega))

theorem AtTop.post_self (s : State) (h : AtTop s) : AllocPost s s := by
  refine ⟨rfl, rfl, rfl, h.n_le, ?_, ?_, ?_, h.nz, h.bytes, h.distinct, h.alive,
    ⟨[], by simp, by simp⟩⟩
  · rw [h.prog]; exact h.n_le
  · rw [h.prog]; omega
  · rw [h.prog]

theorem AtTop.post_alloc (s : State) (h : AtTop s) : AllocPost s (doAlloc s) := by
  have hp := h.prog
  refine ⟨rfl, rfl, rfl, h.n_le, ?_, ?_, ?_, ?_, ?_, ?_, ?_,
    ⟨[.xmalloc GB (s.brk + 1)], rfl, by simp [Event.isAlloc]⟩⟩
  · show s.progress ≤ MAXB
    rw [hp]; exact h.n_le
  · show s.progress ≤ s.n + 1
    omega
  · show s.n ≤ s.progress
    omega
  · intro i hi
    have hi2 : i < s.progress := hi
    have e : i ≠ s.n := by omega
    simp only [doAlloc, xmalloc, e, if_false]
    exact h.nz i hi2
  · intro i hi off hoff
    have hi2 : i < s.progress := hi
    have e : i ≠ s.n := by omega
    simp only [doAlloc, xmalloc, e, if_false]
    exact h.bytes i hi2 off hoff
  · intro i j hij hj
    have hj2 : j < s.progress := hj
    have e : j ≠ s.n := by omega
    have e1 : i ≠ s.n := by omega
    simp only [doAlloc, xmalloc, e, e1, if_false]
    exact h.distinct i j hij hj2
  · intro i hi
    have hi2 : i < s.progress := hi
    have e : i ≠ s.n := by omega
    simp only [doAlloc, xmalloc, e, if_false]
    exact List.mem_cons_of_mem _ (h.alive i hi2)

theorem AtTop.post_fill (s : State) (h : AtTop s) (hn : s.n < MAXB) :
    AllocPost s (doFill (doAlloc s)) := by
  have hb := h.body s hn
  have hp := h.prog
  refine ⟨rfl, rfl, rfl, h.n_le, ?_, ?_, ?_, ?_, ?_, ?_, ?_,
    ⟨[.xmalloc GB (s.brk + 1), .memset (s.brk + 1) s.iter GB], ?_, ?_⟩⟩
  · show s.progress + 1 ≤ MAXB
    omega
  · show s.progress + 1 ≤ s.n + 1
    omega
  · show s.n ≤ s.progress + 1
    omega
  · exact hb.nz
  · exact hb.bytes
  · exact hb.distinct
  · exact hb.alive
  · simp [doFill, doAlloc, xmalloc, memset]
  · simp [Event.isAlloc]

theorem AllocPost.of_body (s r : State) (h : AllocPost (allocBody s) r) : AllocPost s r := by
  obtain ⟨evs, he, ha⟩ := h.trace
  refine ⟨h.iter_eq, h.tbuf_eq, h.stdin_eq, h.n_le, h.prog_le, h.prog_n, h.n_prog, h.nz,
    h.bytes, h.distinct, h.alive,
    ⟨[.xmalloc GB (s.brk + 1), .memset (s.brk + 1) s.iter GB, .report s.n] ++ evs, ?_, ?_⟩⟩
  · rw [he]
    simp [allocBody, doFill, doAlloc, xmalloc, memset, emit]
  · intro e hmem
    rcases List.mem_append.mp hmem with h1 | h1
    · simp at h1
      rcases h1 with h1 | h1 | h1 <;> simp [h1, Event.isAlloc]
    · exact ha e h1

/-- With the fuel `main` gives it the allocation loop stops by its own test or by a
trigger, and the populated part of the table is as the loop left it. -/
theorem allocLoop_post (trig : Option Trigger) :
    ∀ fuel s, AtTop s → MAXB < fuel + s.n →
      ((allocLoop trig fuel s).2 = .done ∨ (allocLoop trig fuel s).2 = .jumped) ∧
      AllocPost s (allocLoop trig fuel s).1 := by
  intro fuel
  induction fuel with
  | zero =>
    intro s h hf
    have := h.n_le
    omega
  | succ f ih =>
    intro s h hf
    simp only [allocLoop]
    split_ifs with h1 h2 h3 h4
    · exact ⟨by simp, h.post_self⟩
    · exact ⟨by simp, h.post_alloc⟩
    · exact ⟨by simp, h.post_fill s h2⟩
    · have hb := h.body s h2
      have hn : (allocBody s).n = s.n + 1 := rfl
      obtain ⟨r1, r2⟩ := ih (allocBody s) hb (by rw [hn]; omega)
      exact ⟨r1, AllocPost.of_body s _ r2⟩
    · exact ⟨by simp, h.post_self⟩

/-- The allocation loop writes no word from index `MAXB` on. -/
theorem allocLoop_bufs_high (trig : Option Trigger) (j : Nat) (hj : MAXB ≤ j) :
    ∀ fuel s, (allocLoop trig fuel s).1.bufs j = s.bufs j := by
  intro fuel
  induction fuel with
  | zero => intro s; rfl
  | succ f ih =>
    intro s
    simp only [allocLoop]
    split_ifs with h1 h2 h3 h4
    · rfl
    · have e : j ≠ s.n := by omega
      simp [doAlloc, xmalloc, e]
    · have e : j ≠ s.n := by omega
      simp [doFill, doAlloc, xmalloc, memset, e]
    · rw [ih (allocBody s)]
      have e : j ≠ s.n := by omega
      simp [allocBody, doFill, doAlloc, xmalloc, memset, emit, e]
    · rfl

/-- Without a trigger the loop runs through all indices from the current one on. -/
theorem allocLoop_none :
    ∀ fuel s c, s.brk = c + s.n → s.n ≤ MAXB → MAXB < fuel + s.n →
      (allocLoop none fuel s).2 = .done ∧
      (allocLoop none fuel s).1.trace
        = s.trace ++ (List.range' s.n (MAXB - s.n)).flatMap (turnEvents c s.iter) := by
  intro fuel
  induction fuel with
  | zero =>
    intro s c _ h hf
    omega
  | succ f ih =>
    intro s c hc h hf
    simp only [allocLoop]
    by_cases h2 : s.n < MAXB
    · have hn : (allocBody s).n = s.n + 1 := rfl
      have hb : (allocBody s).brk = c + (allocBody s).n := by
        show s.brk + 1 = c + (s.n + 1)
        omega
      obtain ⟨r1, r2⟩ := ih (allocBody s) c hb (by rw [hn]; omega) (by rw [hn]; omega)
      have hk : MAXB - s.n = (MAXB - (s.n + 1)) + 1 := by omega
      have ht : (allocBody s).trace = s.trace ++ turnEvents c s.iter s.n := by
        simp [allocBody, doFill, doAlloc, xmalloc, memset, emit, turnEvents, hc]
      have hi : (allocBody s).iter = s.iter := rfl
      simp only [h2, if_true, reduceCtorEq, if_false]
      refine ⟨r1, ?_⟩
      rw [r2, hn, hi, ht, hk, List.range'_succ]
      simp [List.flatMap_cons]
    · have e : MAXB - s.n = 0 := by omega
      simp [h2, e]

/-- A trigger that names a point of the loop not yet passed is taken there. -/
theorem allocLoop_fires (t : Trigger) (ht : t.fires) :
    ∀ fuel s, s.n ≤ t.index → MAXB < fuel + s.n →
      (allocLoop (some t) fuel s).2 = .jumped ∧ (allocLoop (some t) fuel s).1.n = t.index := by
  intro fuel
  induction fuel with
  | zero =>
    intro s h hf
    cases t <;> simp only [Trigger.fires, Trigger.index] at ht h <;> omega
  | succ f ih =>
    intro s h hf
    have hn : (allocBody s).n = s.n + 1 := rfl
    simp only [allocLoop]
    cases t with
    | atTop m =>
      simp only [Trigger.fires, Trigger.index] at ht h ⊢
      by_cases e : m = s.n
      · simp [e]
      · have h2 : s.n < MAXB := by omega
        simp only [Option.some.injEq, Trigger.atTop.injEq, e, if_false, h2, if_true,
          reduceCtorEq]
        exact ih (allocBody s) (by rw [hn]; simp only [Trigger.index]; omega) (by rw [hn]; omega)
    | afterAlloc m =>
      simp only [Trigger.fires, Trigger.index] at ht h ⊢
      have h2 : s.n < MAXB := by omega
      by_cases e : m = s.n
      · simp [e, h2, doAlloc, xmalloc]
      · simp only [Option.some.injEq, Trigger.afterAlloc.injEq, e, if_false, h2, if_true,
          reduceCtorEq]
        exact ih (allocBody s) (by rw [hn]; simp only [Trigger.index]; omega) (by rw [hn]; omega)
    | afterFill m =>
      simp only [Trigger.fires, Trigger.index] at ht h ⊢
      have h2 : s.n < MAXB := by omega
      by_cases e : m = s.n
      · simp [e, h2, doAlloc, doFill, xmalloc, memset]
      · simp only [Option.some.injEq, Trigger.afterFill.injEq, e, if_false, h2, if_true,
          reduceCtorEq]
        exact ih (allocBody s) (by rw [hn]; simp only [Trigger.index]; omega) (by rw [hn]; omega)

/-! ## The release loop -/

theorem releaseEvents_snoc (bufs : Nat → Nat) :
    ∀ k a, releaseEvents bufs a (k + 1)
      = releaseEvents bufs a k ++ releaseEvents bufs (a + k) 1 := by
  intro k
  induction k with
  | zero => intro a; simp [releaseEvents]
  | succ k ih =>
    intro a
    have e : a + 1 + k = a + (k + 1) := by omega
    rw [releaseEvents, ih (a + 1), e]
    simp [releaseEvents]

/-- The release loop started at index `s.i`, when the entries from there up to `k` hold
live handles different from each other: it never runs out of fuel; it runs through some
number `cnt` of turns, all of them if it ends by its test, and if it stops in a call of
`xfree` that call is on a non-null word at an index from `k` on. -/
theorem releaseLoop_spec (k : Nat) :
    ∀ fuel s, s.i ≤ s.n + 1 → s.n + 1 < fuel + s.i →
      (∀ j, s.i ≤ j → j < k → s.bufs j ∈ s.live) →
      (∀ j j2, s.i ≤ j → j < j2 → j2 < k → s.bufs j ≠ s.bufs j2) →
      ∃ cnt, (releaseLoop fuel s).1.iter = s.iter ∧ (releaseLoop fuel s).1.tbuf = s.tbuf ∧
        (releaseLoop fuel s).1.stdin = s.stdin ∧ (releaseLoop fuel s).1.bufs = s.bufs ∧
        (releaseLoop fuel s).1.trace = s.trace ++ releaseEvents s.bufs s.i cnt ∧
        s.i + cnt ≤ s.n + 1 ∧
        (((releaseLoop fuel s).2 = .done ∧ s.i + cnt = s.n + 1) ∨
          ((releaseLoop fuel s).2 = .aborted ∧ 0 < cnt ∧ k ≤ s.i + cnt - 1 ∧
            s.bufs (s.i + cnt - 1) ≠ 0)) := by
  intro fuel
  induction fuel with
  | zero =>
    intro s h hf
    omega
  | succ f ih =>
    intro s h hf hl hd
    by_cases h1 : s.i < s.n + 1
    · by_cases h2 : s.bufs s.i ≠ 0
      · by_cases h3 : s.bufs s.i ∈ s.live
        · have hstep : releaseLoop (f + 1) s = releaseLoop f
              { s with
                live := s.live.erase (s.bufs s.i)
                trace := s.trace ++ [.load s.i] ++ [.xfree s.i (s.bufs s.i)]
                i := s.i + 1 } := by
            simp [releaseLoop, h1, h2, xfree, emit, h3]
          obtain ⟨cnt, r1, r2, r3, r4, r5, r6, r7⟩ := ih
            { s with
              live := s.live.erase (s.bufs s.i)
              trace := s.trace ++ [.load s.i] ++ [.xfree s.i (s.bufs s.i)]
              i := s.i + 1 }
            (by show s.i + 1 ≤ s.n + 1; omega) (by show s.n + 1 < f + (s.i + 1); omega)
            (by
              intro j hj hjk
              have hj2 : s.i + 1 ≤ j := hj
              show s.bufs j ∈ s.live.erase (s.bufs s.i)
              have hne : s.bufs s.i ≠ s.bufs j := hd s.i j (le_refl _) (by omega) hjk
              exact (List.mem_erase_of_ne (Ne.symm hne)).mpr (hl j (by omega) hjk))
            (by
              intro j j2 hj hjj hjk
              have hj2 : s.i + 1 ≤ j := hj
              exact hd j j2 (by omega) hjj hjk)
          rw [hstep]
          refine ⟨cnt + 1, r1, r2, r3, r4, ?_, ?_, ?_⟩
          · rw [r5]
            show s.trace ++ [.load s.i] ++ [.xfree s.i (s.bufs s.i)]
              ++ releaseEvents s.bufs (s.i + 1) cnt = _
            simp [releaseEvents, h2]
          · have : s.i + 1 + cnt ≤ s.n + 1 := r6
            omega
          · rcases r7 with ⟨q1, q2⟩ | ⟨q1, q2, q3, q4⟩
            · left
              have : s.i + 1 + cnt = s.n + 1 := q2
              exact ⟨q1, by omega⟩
            · right
              have q3b : k ≤ s.i + 1 + cnt - 1 := q3
              have q4b : s.bufs (s.i + 1 + cnt - 1) ≠ 0 := q4
              have e : s.i + 1 + cnt - 1 = s.i + (cnt + 1) - 1 := by omega
              rw [e] at q3b q4b
              exact ⟨q1, by omega, q3b, q4b⟩
        · have hstep : releaseLoop (f + 1) s
              = (emit (emit s (.load s.i)) (.xfree s.i (s.bufs s.i)), .aborted) := by
            simp [releaseLoop, h1, h2, xfree, emit, h3]
          rw [hstep]
          refine ⟨1, rfl, rfl, rfl, rfl, ?_, by omega, ?_⟩
          · simp [releaseEvents, emit, h2]
          · right
            refine ⟨rfl, by omega, ?_, ?_⟩
            · by_contra hc
              exact h3 (hl s.i (le_refl _) (by omega))
            · have e : s.i + 1 - 1 = s.i := by omega
              rw [e]
              exact h2
      · have hstep : releaseLoop (f + 1) s = releaseLoop f
            { s with trace := s.trace ++ [.load s.i], i := s.i + 1 } := by
          simp [releaseLoop, h1, h2, emit]
        obtain ⟨cnt, r1, r2, r3, r4, r5, r6, r7⟩ := ih
          { s with trace := s.trace ++ [.load s.i], i := s.i + 1 }
          (by show s.i + 1 ≤ s.n + 1; omega) (by show s.n + 1 < f + (s.i + 1); omega)
          (by
            intro j hj hjk
            have hj2 : s.i + 1 ≤ j := hj
            exact hl j (by omega) hjk)
          (by
            intro j j2 hj hjj hjk
            have hj2 : s.i + 1 ≤ j := hj
            exact hd j j2 (by omega) hjj hjk)
        rw [hstep]
        refine ⟨cnt + 1, r1, r2, r3, r4, ?_, ?_, ?_⟩
        · rw [r5]
          show s.trace ++ [.load s.i] ++ releaseEvents s.bufs (s.i + 1) cnt = _
          simp [releaseEvents, h2]
        · have : s.i + 1 + cnt ≤ s.n + 1 := r6
          omega
        · rcases r7 with ⟨q1, q2⟩ | ⟨q1, q2, q3, q4⟩
          · left
            have : s.i + 1 + cnt = s.n + 1 := q2
            exact ⟨q1, by omega⟩
          · right
            have q3b : k ≤ s.i + 1 + cnt - 1 := q3
            have q4b : s.bufs (s.i + 1 + cnt - 1) ≠ 0 := q4
            have e : s.i + 1 + cnt - 1 = s.i + (cnt + 1) - 1 := by omega
            rw [e] at q3b q4b
            exact ⟨q1, by omega, q3b, q4b⟩
    · have hstep : releaseLoop (f + 1) s = (s, .done) := by
        simp [releaseLoop, h1]
      rw [hstep]
      refine ⟨0, rfl, rfl, rfl, rfl, by simp [releaseEvents], by omega, ?_⟩
      left
      exact ⟨rfl, by omega⟩

/-- The recovery branch, entered with the entries below `k` holding live handles different
from each other.  Either it comes to its `goto` after visiting the indices `0` to `n`, or
the program stops in a call of `xfree` on a non-null word at an index from `k` on. -/
theorem recover_spec (k : Nat) (s : State)
    (hl : ∀ j, j < k → s.bufs j ∈ s.live)
    (hd : ∀ j j2, j < j2 → j2 < k → s.bufs j ≠ s.bufs j2) :
    (recover s).1.iter = s.iter ∧ (recover s).1.tbuf = s.tbuf ∧
      (recover s).1.stdin = s.stdin ∧ (recover s).1.bufs = s.bufs ∧
      (((recover s).2 = .done ∧ (recover s).1.n = 0 ∧ (recover s).1.progress = 0 ∧
          (recover s).1.trace = s.trace ++ releaseEvents s.bufs 0 (s.n + 1) ++ [.freed]) ∨
        ((recover s).2 = .aborted ∧ ∃ cnt, 0 < cnt ∧ cnt ≤ s.n + 1 ∧ k ≤ cnt - 1 ∧
          s.bufs (cnt - 1) ≠ 0 ∧
          (recover s).1.trace = s.trace ++ releaseEvents s.bufs 0 cnt)) := by
  obtain ⟨cnt, r1, r2, r3, r4, r5, r6, r7⟩ :=
    releaseLoop_spec k (s.n + 2) { s with i := 0 } (by simp) (by simp)
      (fun j _ hj => hl j hj) (fun j j2 _ hjj hj => hd j j2 hjj hj)
  simp only [recover]
  generalize releaseLoop (s.n + 2) { s with i := 0 } = q at r1 r2 r3 r4 r5 r6 r7
  obtain ⟨q1, q2⟩ := q
  simp only at r1 r2 r3 r4 r5 r6 r7
  rcases r7 with ⟨e1, e2⟩ | ⟨e1, e2, e3, e4⟩
  · subst e1
    have ec : cnt = s.n + 1 := by omega
    subst ec
    refine ⟨r1, r2, r3, r4, ?_⟩
    left
    refine ⟨rfl, rfl, rfl, ?_⟩
    show q1.trace ++ [.freed] = _
    rw [r5]
  · subst e1
    refine ⟨r1, r2, r3, r4, ?_⟩
    right
    refine ⟨rfl, cnt, e2, by omega, ?_, ?_, r5⟩
    · simpa using e3
    · simpa using e4

/-- The recovery branch from any state: it ends at its `goto` or in a call of `xfree`. -/
theorem recover_cases (s : State) :
    (recover s).1.iter = s.iter ∧ (recover s).1.tbuf = s.tbuf ∧
      (recover s).1.stdin = s.stdin ∧ (recover s).1.bufs = s.bufs ∧
      (((recover s).2 = .done ∧ (recover s).1.n = 0 ∧ (recover s).1.progress = 0 ∧
          (recover s).1.trace = s.trace ++ releaseEvents s.bufs 0 (s.n + 1) ++ [.freed]) ∨
        ((recover s).2 = .aborted ∧ ∃ cnt, 0 < cnt ∧ cnt ≤ s.n + 1 ∧ 0 ≤ cnt - 1 ∧
          s.bufs (cnt - 1) ≠ 0 ∧
          (recover s).1.trace = s.trace ++ releaseEvents s.bufs 0 cnt)) :=
  recover_spec 0 s (fun _ hj => absurd hj (Nat.not_lt_zero _))
    (fun _ _ _ hj => absurd hj (Nat.not_lt_zero _))

theorem freesOf_append (i : Nat) (xs ys : List Event) :
    freesOf i (xs ++ ys) = freesOf i xs + freesOf i ys := by
  unfold freesOf
  exact List.countP_append _ xs ys

theorem freesOf_releaseEvents (bufs : Nat → Nat) (i : Nat) :
    ∀ k a, freesOf i (releaseEvents bufs a k)
      = if a ≤ i ∧ i < a + k ∧ bufs i ≠ 0 then 1 else 0 := by
  intro k
  induction k with
  | zero =>
    intro a
    have c : ¬ (a ≤ i ∧ i < a + 0 ∧ bufs i ≠ 0) := by
      intro h
      omega
    rw [if_neg c]
    rfl
  | succ k ih =>
    intro a
    have hd : freesOf i (if bufs a ≠ 0 then [.load a, .xfree a (bufs a)] else [.load a])
        = if a = i ∧ bufs a ≠ 0 then 1 else 0 := by
      by_cases hb : bufs a ≠ 0
      · rw [if_pos hb]
        by_cases e : a = i
        · rw [if_pos ⟨e, hb⟩]
          simp [freesOf, e, List.countP_cons]
        · rw [if_neg (fun h => e h.1)]
          simp [freesOf, e, List.countP_cons]
      · rw [if_neg hb, if_neg (fun h => hb h.2)]
        simp [freesOf, List.countP_cons]
    rw [releaseEvents, freesOf_append, hd, ih (a + 1)]
    by_cases e : a = i
    · subst e
      have c : ¬ (a + 1 ≤ a ∧ a < a + 1 + k ∧ bufs a ≠ 0) := by
        intro h
        omega
      rw [if_neg c]
      by_cases hb : bufs a ≠ 0
      · rw [if_pos ⟨rfl, hb⟩, if_pos ⟨le_refl _, by omega, hb⟩]
      · rw [if_neg (fun h => hb h.2), if_neg (fun h => hb h.2.2)]
    · rw [if_neg (fun h => e h.1)]
      by_cases c : a + 1 ≤ i ∧ i < a + 1 + k ∧ bufs i ≠ 0
      · rw [if_pos c, if_pos ⟨by omega, by omega, c.2.2⟩]
      · rw [if_neg c, if_neg (fun h => c ⟨by omega, by omega, h.2.2⟩)]

theorem isRelease_releaseEvents (bufs : Nat → Nat) :
    ∀ k a, ∀ e ∈ releaseEvents bufs a k, e.isRelease = true := by
  intro k
  induction k with
  | zero => intro a e h; simp [releaseEvents] at h
  | succ k ih =>
    intro a e h
    simp only [releaseEvents, List.mem_append] at h
    rcases h with h | h
    · by_cases hb : bufs a ≠ 0
      · rw [if_pos hb] at h
        simp only [List.mem_cons, List.mem_singleton, List.not_mem_nil, or_false] at h
        rcases h with h | h <;> simp [h, Event.isRelease]
      · rw [if_neg hb] at h
        simp only [List.mem_singleton] at h
        simp [h, Event.isRelease]
    · exact ih (a + 1) e h

theorem load_mem_releaseEvents (bufs : Nat → Nat) (i : Nat) :
    ∀ k a, a ≤ i → i < a + k → Event.load i ∈ releaseEvents bufs a k := by
  intro k
  induction k with
  | zero => intro a h1 h2; omega
  | succ k ih =>
    intro a h1 h2
    simp only [releaseEvents, List.mem_append]
    by_cases e : a = i
    · subst e
      left
      by_cases hb : bufs a ≠ 0 <;> simp [hb]
    · right
      exact ih (a + 1) (by omega) (by omega)

/-! ## One pass -/

theorem pass_no (trig : Option Trigger) (s : State)
    (h : (fgets s.tbuf 99 s.stdin).1.head? ≠ some 'y') :
    pass trig s = (declined s, .returned 0) := by
  simp only [pass, emit, declined]
  rw [if_pos h]

theorem pass_yes (trig : Option Trigger) (s : State)
    (h : (fgets s.tbuf 99 s.stdin).1.head? = some 'y') :
    pass trig s =
      match allocLoop trig (MAXB + 1) (entered s) with
      | (s3, .done) => (s3, .returned 0)
      | (s3, .jumped) => (emit s3 .longjmp, .jumped)
      | (s3, _) => (s3, .outOfFuel) := by
  simp only [pass, emit, entered]
  rw [if_neg (by simpa using h)]

theorem entered_atTop (s : State) : AtTop (entered s) := by
  refine ⟨rfl, ?_, ?_, ?_, ?_, ?_, ?_⟩
  · show 0 ≤ MAXB
    omega
  · intro i hi
    exact absurd hi (Nat.not_lt_zero i)
  · intro i hi
    exact absurd hi (Nat.not_lt_zero i)
  · intro i hi
    exact absurd hi (Nat.not_lt_zero i)
  · intro i j _ hj
    exact absurd hj (Nat.not_lt_zero j)
  · intro i hi
    exact absurd hi (Nat.not_lt_zero i)

/-- The two ways a pass can go after an affirmative reply. -/
theorem pass_yes_cases (trig : Option Trigger) (s : State)
    (h : (fgets s.tbuf 99 s.stdin).1.head? = some 'y') :
    ∃ r, AllocPost (entered s) r ∧
      (pass trig s = (r, .returned 0) ∨ pass trig s = (emit r .longjmp, .jumped)) := by
  obtain ⟨h1, h2⟩ := allocLoop_post trig (MAXB + 1) (entered s) (entered_atTop s)
    (by show MAXB < MAXB + 1 + 0; omega)
  refine ⟨(allocLoop trig (MAXB + 1) (entered s)).1, h2, ?_⟩
  rw [pass_yes trig s h]
  generalize allocLoop trig (MAXB + 1) (entered s) = q at h1
  obtain ⟨q1, q2⟩ := q
  cases q2 with
  | done => left; rfl
  | jumped => right; rfl
  | aborted => simp at h1
  | outOfFuel => simp at h1

/-- A pass that ends in a jump followed an affirmative reply. -/
theorem pass_jumped (trig : Option Trigger) (s : State) (hj : (pass trig s).2 = .jumped) :
    (fgets s.tbuf 99 s.stdin).1.head? = some 'y' ∧
    ∃ r, AllocPost (entered s) r ∧ pass trig s = (emit r .longjmp, .jumped) := by
  by_cases h : (fgets s.tbuf 99 s.stdin).1.head? = some 'y'
  · refine ⟨h, ?_⟩
    obtain ⟨r, hr, hp | hp⟩ := pass_yes_cases trig s h
    · rw [hp] at hj
      simp at hj
    · exact ⟨r, hr, hp⟩
  · rw [pass_no trig s h] at hj
    simp at hj

/-- Every pass starts by printing the prompt, and ends in a return or in the jump. -/
theorem pass_trace (trig : Option Trigger) (s : State) :
    (∃ rest, (pass trig s).1.trace = s.trace ++ .prompt :: rest) ∧
      (pass trig s).1.iter = (s.iter + 1) % 256 ∧
      ((pass trig s).2 = .returned 0 ∨ (pass trig s).2 = .jumped) := by
  by_cases h : (fgets s.tbuf 99 s.stdin).1.head? = some 'y'
  · obtain ⟨r, hr, hp | hp⟩ := pass_yes_cases trig s h
    · obtain ⟨evs, he, _⟩ := hr.trace
      rw [hp]
      refine ⟨⟨.allocating :: evs, ?_⟩, hr.iter_eq, by simp⟩
      rw [he]
      simp [entered]
    · obtain ⟨evs, he, _⟩ := hr.trace
      rw [hp]
      refine ⟨⟨.allocating :: (evs ++ [.longjmp]), ?_⟩, hr.iter_eq, by simp⟩
      show r.trace ++ [.longjmp] = _
      rw [he]
      simp [entered]
  · rw [pass_no trig s h]
    exact ⟨⟨[.exiting], by simp [declined]⟩, rfl, by simp⟩

/-- The progress with which a trigger is taken. -/
theorem allocLoop_fires_progress (t : Trigger) (ht : t.fires) :
    ∀ fuel s, s.progress = s.n → s.n ≤ t.index → MAXB < fuel + s.n →
      (allocLoop (some t) fuel s).1.progress = t.populated := by
  intro fuel
  induction fuel with
  | zero =>
    intro s _ h hf
    cases t <;> simp only [Trigger.fires, Trigger.index] at ht h <;> omega
  | succ f ih =>
    intro s hp h hf
    have hn : (allocBody s).n = s.n + 1 := rfl
    have hq : (allocBody s).progress = (allocBody s).n := by
      show s.progress + 1 = s.n + 1
      omega
    simp only [allocLoop]
    cases t with
    | atTop m =>
      simp only [Trigger.fires, Trigger.index, Trigger.populated] at ht h ⊢
      by_cases e : m = s.n
      · simp [e, hp]
      · have h2 : s.n < MAXB := by omega
        simp only [Option.some.injEq, Trigger.atTop.injEq, e, if_false, h2, if_true,
          reduceCtorEq]
        exact ih (allocBody s) hq (by rw [hn]; simp only [Trigger.index]; omega)
          (by rw [hn]; omega)
    | afterAlloc m =>
      simp only [Trigger.fires, Trigger.index, Trigger.populated] at ht h ⊢
      have h2 : s.n < MAXB := by omega
      by_cases e : m = s.n
      · simp [e, h2, doAlloc, xmalloc, hp]
      · simp only [Option.some.injEq, Trigger.afterAlloc.injEq, e, if_false, h2, if_true,
          reduceCtorEq]
        exact ih (allocBody s) hq (by rw [hn]; simp only [Trigger.index]; omega)
          (by rw [hn]; omega)
    | afterFill m =>
      simp only [Trigger.fires, Trigger.index, Trigger.populated] at ht h ⊢
      have h2 : s.n < MAXB := by omega
      by_cases e : m = s.n
      · simp [e, h2, doAlloc, doFill, xmalloc, memset, hp]
      · simp only [Option.some.injEq, Trigger.afterFill.injEq, e, if_false, h2, if_true,
          reduceCtorEq]
        exact ih (allocBody s) hq (by rw [hn]; simp only [Trigger.index]; omega)
          (by rw [hn]; omega)

/-- A pass in which the reply is affirmative and a trigger arrives ends in the jump. -/
theorem pass_fires (t : Trigger) (ht : t.fires) (s : State)
    (h : (fgets s.tbuf 99 s.stdin).1.head? = some 'y') :
    ∃ r, AllocPost (entered s) r ∧ r.n = t.index ∧ r.progress = t.populated ∧
      (∀ j, MAXB ≤ j → r.bufs j = s.bufs j) ∧
      pass (some t) s = (emit r .longjmp, .jumped) := by
  obtain ⟨h1, h2⟩ := allocLoop_fires t ht (MAXB + 1) (entered s) (Nat.zero_le _)
    (by show MAXB < MAXB + 1 + 0; omega)
  have h3 := allocLoop_fires_progress t ht (MAXB + 1) (entered s) rfl (Nat.zero_le _)
    (by show MAXB < MAXB + 1 + 0; omega)
  obtain ⟨_, h4⟩ := allocLoop_post (some t) (MAXB + 1) (entered s) (entered_atTop s)
    (by show MAXB < MAXB + 1 + 0; omega)
  refine ⟨(allocLoop (some t) (MAXB + 1) (entered s)).1, h4, h2, h3,
    fun j hj => allocLoop_bufs_high (some t) j hj (MAXB + 1) (entered s), ?_⟩
  rw [pass_yes (some t) s h]
  generalize allocLoop (some t) (MAXB + 1) (entered s) = q at h1
  obtain ⟨q1, q2⟩ := q
  simp only at h1
  subst h1
  rfl

/-- A pass in which the reply is affirmative and no trigger arrives allocates the whole
table and leaves `main`. -/
theorem pass_none_yes (s : State) (h : (fgets s.tbuf 99 s.stdin).1.head? = some 'y') :
    ∃ r, pass none s = (r, .returned 0) ∧ AllocPost (entered s) r ∧
      r.trace = s.trace ++ [.prompt, .allocating]
        ++ (List.range MAXB).flatMap (turnEvents s.brk ((s.iter + 1) % 256)) := by
  obtain ⟨h1, h2⟩ := allocLoop_none (MAXB + 1) (entered s) s.brk rfl (Nat.zero_le _)
    (by show MAXB < MAXB + 1 + 0; omega)
  obtain ⟨_, h4⟩ := allocLoop_post none (MAXB + 1) (entered s) (entered_atTop s)
    (by show MAXB < MAXB + 1 + 0; omega)
  refine ⟨(allocLoop none (MAXB + 1) (entered s)).1, ?_, h4, ?_⟩
  · rw [pass_yes none s h]
    generalize allocLoop none (MAXB + 1) (entered s) = q at h1
    obtain ⟨q1, q2⟩ := q
    simp only at h1
    subst h1
    rfl
  · rw [h2]
    have e : (entered s).n = 0 := rfl
    rw [e, Nat.sub_zero, List.range_eq_range']
    simp [entered]

/-! ## Whole runs -/

/-- After a pass that ended in the jump and a recovery that came to its `goto`, the run goes
on from there. -/
theorem run_cons_jumped (t : Trigger) (ts : List Trigger) (s q : State)
    (hj : (pass (some t) s).2 = .jumped) (hr : recover (pass (some t) s).1 = (q, .done)) :
    run (t :: ts) s = run ts q := by
  rw [run]
  generalize pass (some t) s = p at hj hr
  obtain ⟨p1, p2⟩ := p
  simp only at hj hr
  subst hj
  simp only [hr]

/-- After a pass that ended in the jump and a recovery that stopped in `xfree`, the run is
over. -/
theorem run_cons_aborted (t : Trigger) (ts : List Trigger) (s q : State)
    (hj : (pass (some t) s).2 = .jumped) (hr : recover (pass (some t) s).1 = (q, .aborted)) :
    run (t :: ts) s = (q, .aborted) := by
  rw [run]
  generalize pass (some t) s = p at hj hr
  obtain ⟨p1, p2⟩ := p
  simp only at hj hr
  subst hj
  simp only [hr]

/-- After a pass that ended in a return the run is over. -/
theorem run_cons_returned (t : Trigger) (ts : List Trigger) (s : State)
    (hj : (pass (some t) s).2 = .returned 0) :
    run (t :: ts) s = ((pass (some t) s).1, .returned 0) := by
  rw [run]
  generalize pass (some t) s = p at hj
  obtain ⟨p1, p2⟩ := p
  simp only at hj
  subst hj
  rfl

/-- At every arrival at `loop:` the counter holds the number of earlier arrivals modulo 256
and nothing is populated. -/
theorem atEntry_inv (j : Nat) (s : State) (h : AtEntry j s) :
    ∃ m, j = m + 1 ∧ s.iter = m % 256 ∧ s.progress = 0 := by
  induction h with
  | start input tbuf0 bufs0 => exact ⟨0, rfl, rfl, rfl⟩
  | again j s s2 t _ hj hr ih =>
    obtain ⟨m, e1, e2, _⟩ := ih
    obtain ⟨r1, _, _, _, hc⟩ := recover_cases (pass (some t) s).1
    rw [hr] at r1 hc
    rcases hc with ⟨_, _, c3, _⟩ | ⟨c1, _⟩
    · refine ⟨m + 1, by omega, ?_, c3⟩
      have r1b : s2.iter = (pass (some t) s).1.iter := r1
      rw [r1b, (pass_trace (some t) s).2.1, e2]
      omega
    · simp at c1

/-- The model never runs out of fuel: every run ends with `main` returning `0` or with the
program stopped in a call of `xfree`. -/
theorem run_total :
    ∀ (trigs : List Trigger) (s : State),
      (run trigs s).2 = .returned 0 ∨ (run trigs s).2 = .aborted := by
  intro trigs
  induction trigs with
  | nil =>
    intro s
    by_cases hy : (fgets s.tbuf 99 s.stdin).1.head? = some 'y'
    · obtain ⟨r, hp, _⟩ := pass_none_yes s hy
      left
      simp only [run, hp]
    · left
      simp only [run, pass_no none s hy]
  | cons t ts ih =>
    intro s
    rcases (pass_trace (some t) s).2.2 with hp | hp
    · left
      rw [run_cons_returned t ts s hp]
    · rcases (recover_cases (pass (some t) s).1).2.2.2.2 with ⟨c1, _⟩ | ⟨c1, _⟩
      · rw [run_cons_jumped t ts s _ hp (Prod.ext rfl c1)]
        exact ih _
      · right
        rw [run_cons_aborted t ts s _ hp (Prod.ext rfl c1)]

/-- With the trigger at the top of the first turn nothing is allocated. -/
theorem pass_atTop_zero (s : State) (hy : (fgets s.tbuf 99 s.stdin).1.head? = some 'y') :
    pass (some (.atTop 0)) s = (emit (entered s) .longjmp, .jumped) := by
  rw [pass_yes _ s hy]
  have e : allocLoop (some (.atTop 0)) (MAXB + 1) (entered s) = (entered s, .jumped) := by
    simp [allocLoop, entered]
  rw [e]

/-- With `n = 0` and a null first entry the recovery releases nothing. -/
theorem recover_null_zero (s : State) (hn : s.n = 0) (hb : s.bufs 0 = 0) :
    (recover s).2 = .done ∧ (recover s).1.bufs = s.bufs ∧ (recover s).1.tbuf = s.tbuf ∧
      (recover s).1.stdin = s.stdin := by
  obtain ⟨_, r2, r3, r4, hc⟩ := recover_cases s
  refine ⟨?_, r4, r2, r3⟩
  rcases hc with ⟨c1, _⟩ | ⟨_, cnt, c2, c3, _, c5, _⟩
  · exact c1
  · have ec : cnt - 1 = 0 := by omega
    rw [ec] at c5
    exact absurd hb c5

/-- Once the input is used up after a first reply `y`, a trigger at the top of the first
turn of every pass keeps the program coming back to `loop:`. -/
theorem entry_after_eof (k : Nat) :
    ∃ s, AtEntry (k + 2) s ∧ s.stdin = [] ∧ s.tbuf.head? = some 'y' ∧ s.bufs 0 = 0 := by
  induction k with
  | zero =>
    have hy : (fgets (init "y\n".toList zeroBuf nullTable).tbuf 99
        (init "y\n".toList zeroBuf nullTable).stdin).1.head? = some 'y' := by
      decide
    have hp := pass_atTop_zero _ hy
    obtain ⟨r1, r2, r3, r4⟩ := recover_null_zero
      (emit (entered (init "y\n".toList zeroBuf nullTable)) .longjmp) rfl rfl
    refine ⟨(recover (emit (entered (init "y\n".toList zeroBuf nullTable)) .longjmp)).1,
      AtEntry.again 1 _ _ (.atTop 0) (AtEntry.start _ _ _) (by rw [hp])
        (by rw [hp]; exact Prod.ext rfl r1), ?_, ?_, ?_⟩
    · rw [r4]
      decide
    · rw [r3]
      decide
    · rw [r2]
      rfl
  | succ k ih =>
    obtain ⟨s, h, h1, h2, h3⟩ := ih
    have hy : (fgets s.tbuf 99 s.stdin).1.head? = some 'y' := by rw [h1, fgets_nil]; exact h2
    have hp := pass_atTop_zero s hy
    obtain ⟨r1, r2, r3, r4⟩ := recover_null_zero (emit (entered s) .longjmp) rfl h3
    refine ⟨(recover (emit (entered s) .longjmp)).1,
      AtEntry.again (k + 2) s _ (.atTop 0) h (by rw [hp])
        (by rw [hp]; exact Prod.ext rfl r1), ?_, ?_, ?_⟩
    · rw [r4]
      show (fgets s.tbuf 99 s.stdin).2 = []
      rw [h1, fgets_nil]
    · rw [r3]
      exact hy
    · rw [r2]
      exact h3

/-- Affirmative reply, trigger after the last `n++`, negative reply, when the word behind
the table is null: the shape of the whole trace. -/
theorem run_yes_full_jump_no (s : State) (trigs : List Trigger)
    (hy : (fgets s.tbuf 99 s.stdin).1.head? = some 'y')
    (hn : (fgets (fgets s.tbuf 99 s.stdin).1 99 (fgets s.tbuf 99 s.stdin).2).1.head?
      ≠ some 'y')
    (hz : s.bufs MAXB = 0) :
    ∃ evs bufs, (run (.atTop MAXB :: trigs) s).2 = .returned 0 ∧
      (∀ e ∈ evs, e.isAlloc = true) ∧
      (run (.atTop MAXB :: trigs) s).1.trace
        = s.trace ++ [.prompt, .allocating] ++ evs ++ [.longjmp]
          ++ releaseEvents bufs 0 (MAXB + 1) ++ [.freed, .prompt, .exiting] := by
  have ht : (Trigger.atTop MAXB).fires := Nat.le_refl MAXB
  obtain ⟨r, hr, rn, rp, rb, hp⟩ := pass_fires (.atTop MAXB) ht s hy
  have rn2 : r.n = MAXB := rn
  have rp2 : r.progress = MAXB := rp
  have hb : r.bufs MAXB = 0 := by
    rw [rb MAXB (le_refl _)]
    exact hz
  obtain ⟨evs, he, ha⟩ := hr.trace
  obtain ⟨_, q2, q3, _, hc⟩ := recover_spec r.progress (emit r .longjmp) hr.alive hr.distinct
  have hj : (pass (some (.atTop MAXB)) s).2 = .jumped := by rw [hp]
  rcases hc with ⟨c1, _, _, c4⟩ | ⟨_, cnt, c2, c3, c4, c5, _⟩
  · have hrec : recover (pass (some (.atTop MAXB)) s).1
        = ((recover (emit r .longjmp)).1, .done) := by
      rw [hp]
      exact Prod.ext rfl c1
    have hq2 : (recover (emit r .longjmp)).1.tbuf = (fgets s.tbuf 99 s.stdin).1 := by
      rw [q2]
      exact hr.tbuf_eq
    have hq3 : (recover (emit r .longjmp)).1.stdin = (fgets s.tbuf 99 s.stdin).2 := by
      rw [q3]
      exact hr.stdin_eq
    have hno : (fgets (recover (emit r .longjmp)).1.tbuf 99
        (recover (emit r .longjmp)).1.stdin).1.head? ≠ some 'y' := by
      rw [hq2, hq3]
      exact hn
    have hrun : run trigs (recover (emit r .longjmp)).1
        = (declined (recover (emit r .longjmp)).1, .returned 0) := by
      cases trigs with
      | nil => simp only [run, pass_no none _ hno]
      | cons t2 ts => simp only [run, pass_no (some t2) _ hno]
    rw [run_cons_jumped _ trigs s _ hj hrec, hrun]
    refine ⟨evs, r.bufs, rfl, ha, ?_⟩
    show (recover (emit r .longjmp)).1.trace ++ [.prompt] ++ [.exiting] = _
    rw [c4]
    show r.trace ++ [.longjmp] ++ releaseEvents r.bufs 0 (r.n + 1) ++ [.freed] ++ [.prompt]
      ++ [.exiting] = _
    rw [he, rn2]
    simp [entered]
  · have e1 : (emit r .longjmp).n = MAXB := rn2
    have e2 : cnt - 1 = MAXB := by
      rw [e1] at c3
      rw [rp2] at c4
      omega
    rw [e2] at c5
    exact absurd hb c5

/-- At end of input with an affirmative reply still in `tbuf`, the program goes on
allocating and never prints the exit notice, however the run ends. -/
theorem run_eof_yes :
    ∀ (trigs : List Trigger) (s : State), s.stdin = [] → s.tbuf.head? = some 'y' →
      ∃ evs, (run trigs s).1.trace = s.trace ++ .prompt :: .allocating :: evs ∧
        Event.exiting ∉ evs := by
  intro trigs
  induction trigs with
  | nil =>
    intro s h1 h2
    have hy : (fgets s.tbuf 99 s.stdin).1.head? = some 'y' := by rw [h1, fgets_nil]; exact h2
    obtain ⟨r, hp, hr, _⟩ := pass_none_yes s hy
    obtain ⟨evs, he, ha⟩ := hr.trace
    refine ⟨evs, ?_, ?_⟩
    · simp only [run, hp]
      rw [he]
      simp [entered]
    · intro hm
      have := ha _ hm
      simp [Event.isAlloc] at this
  | cons t ts ih =>
    intro s h1 h2
    have hy : (fgets s.tbuf 99 s.stdin).1.head? = some 'y' := by rw [h1, fgets_nil]; exact h2
    obtain ⟨r, hr, hp | hp⟩ := pass_yes_cases (some t) s hy
    · obtain ⟨evs, he, ha⟩ := hr.trace
      refine ⟨evs, ?_, ?_⟩
      · rw [run_cons_returned t ts s (by rw [hp]), hp]
        show r.trace = _
        rw [he]
        simp [entered]
      · intro hm
        have := ha _ hm
        simp [Event.isAlloc] at this
    · obtain ⟨evs, he, ha⟩ := hr.trace
      have hj : (pass (some t) s).2 = .jumped := by rw [hp]
      obtain ⟨_, q2, q3, _, hc⟩ := recover_cases (emit r .longjmp)
      rcases hc with ⟨c1, _, _, c4⟩ | ⟨c1, cnt, _, _, _, _, c6⟩
      · have hrec : recover (pass (some t) s).1 = ((recover (emit r .longjmp)).1, .done) := by
          rw [hp]
          exact Prod.ext rfl c1
        have hq2 : (recover (emit r .longjmp)).1.tbuf.head? = some 'y' := by
          rw [q2]
          show r.tbuf.head? = _
          rw [hr.tbuf_eq]
          exact hy
        have hq3 : (recover (emit r .longjmp)).1.stdin = [] := by
          rw [q3]
          show r.stdin = _
          rw [hr.stdin_eq]
          show (fgets s.tbuf 99 s.stdin).2 = []
          rw [h1, fgets_nil]
        obtain ⟨evs2, e2, e3⟩ := ih _ hq3 hq2
        refine ⟨evs ++ [.longjmp] ++ releaseEvents r.bufs 0 (r.n + 1) ++ [.freed]
          ++ .prompt :: .allocating :: evs2, ?_, ?_⟩
        · rw [run_cons_jumped t ts s _ hj hrec, e2, c4]
          show r.trace ++ [.longjmp] ++ releaseEvents r.bufs 0 (r.n + 1) ++ [.freed]
            ++ .prompt :: .allocating :: evs2 = _
          rw [he]
          simp [entered]
        · intro hm
          simp only [List.mem_append, List.mem_cons, List.mem_singleton, reduceCtorEq,
            List.not_mem_nil, or_false, false_or] at hm
          rcases hm with (hm | hm) | hm
          · have := ha _ hm
            simp [Event.isAlloc] at this
          · have := isRelease_releaseEvents r.bufs _ _ _ hm
            simp [Event.isRelease] at this
          · exact e3 hm
      · have hrec : recover (pass (some t) s).1
            = ((recover (emit r .longjmp)).1, .aborted) := by
          rw [hp]
          exact Prod.ext rfl c1
        refine ⟨evs ++ [.longjmp] ++ releaseEvents r.bufs 0 cnt, ?_, ?_⟩
        · rw [run_cons_aborted t ts s _ hj hrec, c6]
          show r.trace ++ [.longjmp] ++ releaseEvents r.bufs 0 cnt = _
          rw [he]
          simp [entered]
        · intro hm
          simp only [List.mem_append, List.mem_singleton, reduceCtorEq, or_false] at hm
          rcases hm with hm | hm
          · have := ha _ hm
            simp [Event.isAlloc] at this
          · have := isRelease_releaseEvents r.bufs _ _ _ hm
            simp [Event.isRelease] at this

/-! ## Counting in traces -/

theorem counts_turns (c iter : Nat) :
    ∀ k, allocs ((List.range k).flatMap (turnEvents c iter)) = k ∧
      frees ((List.range k).flatMap (turnEvents c iter)) = 0 ∧
      ((List.range k).flatMap (turnEvents c iter)).count .prompt = 0 := by
  intro k
  induction k with
  | zero => exact ⟨rfl, rfl, rfl⟩
  | succ k ih =>
    obtain ⟨h1, h2, h3⟩ := ih
    unfold allocs frees at *
    rw [List.range_succ, List.flatMap_append]
    simp only [List.countP_append, List.count_append, h1, h2, h3]
    simp [turnEvents, List.countP_cons]

/-! ## The claims -/

/-- C1: when the recovery fires during the allocation phase with the buffers `0..k-1`
allocated and filled (`k` the progress, at most `MAXB`), the jump is the last event so far
and among the events of the recovery branch there is exactly one call `xfree(bufs[i])` for
every index `i < k`.  The branch then either comes to its `goto`, and the next pass starts
with the prompt, or the program stops in the call `xfree(bufs[n])`, made after those on the
populated entries, on the non-null word of the entry `n = k` that the pass did not assign. -/
theorem C1_release_each_populated_index_once (trig : Trigger) (s : State)
    (hj : (pass (some trig) s).2 = .jumped) :
    (pass (some trig) s).1.progress ≤ MAXB ∧
    (pass (some trig) s).1.trace.getLast? = some .longjmp ∧
    ∃ evs, (recover (pass (some trig) s).1).1.trace = (pass (some trig) s).1.trace ++ evs ∧
      Event.prompt ∉ evs ∧
      (∀ i, i < (pass (some trig) s).1.progress → freesOf i evs = 1) ∧
      (((recover (pass (some trig) s).1).2 = .done ∧
          ∀ next, ∃ rest, (pass next (recover (pass (some trig) s).1).1).1.trace
            = (recover (pass (some trig) s).1).1.trace ++ .prompt :: rest) ∨
        ((recover (pass (some trig) s).1).2 = .aborted ∧
          (pass (some trig) s).1.progress = (pass (some trig) s).1.n ∧
          (pass (some trig) s).1.bufs (pass (some trig) s).1.n ≠ 0 ∧
          evs.getLast? = some (.xfree (pass (some trig) s).1.n
            ((pass (some trig) s).1.bufs (pass (some trig) s).1.n)))) := by
  obtain ⟨_, r, hr, hp⟩ := pass_jumped (some trig) s hj
  obtain ⟨_, _, _, _, hc⟩ := recover_spec r.progress (emit r .longjmp) hr.alive hr.distinct
  rw [hp]
  refine ⟨hr.prog_le, by simp [emit], ?_⟩
  have hn := hr.prog_n
  have hn2 := hr.n_prog
  rcases hc with ⟨c1, _, _, c4⟩ | ⟨c1, cnt, c2, c3, c4, c5, c6⟩
  · refine ⟨releaseEvents r.bufs 0 (r.n + 1) ++ [.freed], ?_, ?_, ?_, ?_⟩
    · rw [c4]
      simp [emit]
    · intro hm
      simp only [List.mem_append, List.mem_singleton, reduceCtorEq, or_false] at hm
      have := isRelease_releaseEvents r.bufs _ _ _ hm
      simp [Event.isRelease] at this
    · intro i hi
      have hi2 : i < r.progress := hi
      have hnz := hr.nz i hi2
      rw [freesOf_append, freesOf_releaseEvents]
      rw [if_pos ⟨Nat.zero_le _, by omega, hnz⟩]
      rfl
    · left
      exact ⟨c1, fun next => (pass_trace next _).1⟩
  · have c3b : cnt ≤ r.n + 1 := c3
    have ecnt : cnt = r.n + 1 := by omega
    have eprog : r.progress = r.n := by omega
    have c5b : r.bufs (cnt - 1) ≠ 0 := c5
    have en : cnt - 1 = r.n := by omega
    rw [en] at c5b
    refine ⟨releaseEvents r.bufs 0 cnt, c6, ?_, ?_, ?_⟩
    · intro hm
      have := isRelease_releaseEvents r.bufs _ _ _ hm
      simp [Event.isRelease] at this
    · intro i hi
      have hi2 : i < r.progress := hi
      have hnz := hr.nz i hi2
      rw [freesOf_releaseEvents]
      rw [if_pos ⟨Nat.zero_le _, by omega, hnz⟩]
    · right
      refine ⟨c1, eprog, c5b, ?_⟩
      show (releaseEvents r.bufs 0 cnt).getLast? = some (.xfree r.n (r.bufs r.n))
      rw [ecnt, releaseEvents_snoc]
      simp [releaseEvents, c5b]

/-- C1, at the input `y` with the trigger inside the fourth `xmalloc`. -/
theorem C1_release_each_populated_index_once_witness :
    (pass (some (.atTop 3)) (init "y\n".toList zeroBuf nullTable)).2 = .jumped ∧
    ((pass (some (.atTop 3)) (init "y\n".toList zeroBuf nullTable)).1.progress ≤ MAXB ∧
    (pass (some (.atTop 3)) (init "y\n".toList zeroBuf nullTable)).1.trace.getLast?
      = some .longjmp ∧
    ∃ evs, (recover (pass (some (.atTop 3)) (init "y\n".toList zeroBuf nullTable)).1).1.trace
        = (pass (some (.atTop 3)) (init "y\n".toList zeroBuf nullTable)).1.trace ++ evs ∧
      Event.prompt ∉ evs ∧
      (∀ i, i < (pass (some (.atTop 3)) (init "y\n".toList zeroBuf nullTable)).1.progress →
        freesOf i evs = 1) ∧
      (((recover (pass (some (.atTop 3)) (init "y\n".toList zeroBuf nullTable)).1).2 = .done ∧
          ∀ next, ∃ rest,
            (pass next (recover (pass (some (.atTop 3))
              (init "y\n".toList zeroBuf nullTable)).1).1).1.trace
            = (recover (pass (some (.atTop 3))
              (init "y\n".toList zeroBuf nullTable)).1).1.trace ++ .prompt :: rest) ∨
        ((recover (pass (some (.atTop 3)) (init "y\n".toList zeroBuf nullTable)).1).2
            = .aborted ∧
          (pass (some (.atTop 3)) (init "y\n".toList zeroBuf nullTable)).1.progress
            = (pass (some (.atTop 3)) (init "y\n".toList zeroBuf nullTable)).1.n ∧
          (pass (some (.atTop 3)) (init "y\n".toList zeroBuf nullTable)).1.bufs
            (pass (some (.atTop 3)) (init "y\n".toList zeroBuf nullTable)).1.n ≠ 0 ∧
          evs.getLast? = some (.xfree
            (pass (some (.atTop 3)) (init "y\n".toList zeroBuf nullTable)).1.n
            ((pass (some (.atTop 3)) (init "y\n".toList zeroBuf nullTable)).1.bufs
              (pass (some (.atTop 3)) (init "y\n".toList zeroBuf nullTable)).1.n))))) :=
  ⟨by decide, C1_release_each_populated_index_once (.atTop 3)
    (init "y\n".toList zeroBuf nullTable) (by decide)⟩

/-- C5: when the first character of the input is not `y`, `main` prints the prompt and the
exit notice on standard output, nothing on the diagnostic stream, and returns `0`; the
trace holds no allocation and no release. -/
theorem C5_negative_first_reply (c : Char) (rest tbuf0 : List Char) (bufs0 : Nat → Nat)
    (trigs : List Trigger) (hc : c ≠ 'y') :
    ∃ s, main (c :: rest) tbuf0 bufs0 trigs = (s, .returned 0) ∧
      s.trace = [.prompt, .exiting] ∧
      written 1 s.trace = "continue? exiting ...\n" ∧ written 2 s.trace = "" ∧
      allocs s.trace = 0 ∧ frees s.trace = 0 := by
  have hno : (fgets (init (c :: rest) tbuf0 bufs0).tbuf 99 (init (c :: rest) tbuf0 bufs0).stdin).1.head?
      ≠ some 'y' := by
    show (fgets tbuf0 99 (c :: rest)).1.head? ≠ some 'y'
    rw [fgets_head]
    simpa using hc
  refine ⟨declined (init (c :: rest) tbuf0 bufs0), ?_, rfl, ?_, ?_, rfl, rfl⟩
  · cases trigs with
    | nil => simp only [main, run, pass_no none _ hno]
    | cons t ts => simp only [main, run, pass_no (some t) _ hno]
  · show written 1 [.prompt, .exiting] = "continue? exiting ...\n"
    decide
  · show written 2 [.prompt, .exiting] = ""
    decide

/-- C5, at the input `n`. -/
theorem C5_negative_first_reply_witness :
    'n' ≠ 'y' ∧
    ∃ s, main ('n' :: ['\n']) zeroBuf nullTable [] = (s, .returned 0) ∧
      s.trace = [.prompt, .exiting] ∧
      written 1 s.trace = "continue? exiting ...\n" ∧ written 2 s.trace = "" ∧
      allocs s.trace = 0 ∧ frees s.trace = 0 :=
  ⟨by decide, C5_negative_first_reply 'n' ['\n'] zeroBuf nullTable [] (by decide)⟩

/-- C8: when the reply is affirmative and no trigger arrives during the pass, the program
performs `MAXB = 1024` allocations of size `GB = 2^30`, each followed by its `memset` and by
the report of its index, the indices in the order `0, 1, ..., 1023`; then `main` returns `0`.
The pass prints its own prompt and no other, and releases nothing. -/
theorem C8_full_pass_falls_through (s : State)
    (hy : (fgets s.tbuf 99 s.stdin).1.head? = some 'y') :
    ∃ s2 added, run [] s = (s2, .returned 0) ∧ s2.trace = s.trace ++ added ∧
      added = [.prompt, .allocating] ++ (List.range MAXB).flatMap (fun i =>
        [.xmalloc GB (s.brk + i + 1), .memset (s.brk + i + 1) ((s.iter + 1) % 256) GB,
          .report i]) ∧
      allocs added = 1024 ∧ GB = 2 ^ 30 ∧ frees added = 0 ∧ added.count .prompt = 1 := by
  obtain ⟨r, hp, _, ht⟩ := pass_none_yes s hy
  obtain ⟨h1, h2, h3⟩ := counts_turns s.brk ((s.iter + 1) % 256) MAXB
  have hf : (fun i => [Event.xmalloc GB (s.brk + i + 1),
      Event.memset (s.brk + i + 1) ((s.iter + 1) % 256) GB, Event.report i])
      = turnEvents s.brk ((s.iter + 1) % 256) := rfl
  rw [hf]
  refine ⟨r, _, by simp only [run, hp], ?_, rfl, ?_, by decide, ?_, ?_⟩
  · rw [ht, List.append_assoc]
  · unfold allocs at h1 ⊢
    rw [List.countP_append, h1]
    simp [List.countP_cons, MAXB]
  · unfold frees at h2 ⊢
    rw [List.countP_append, h2]
    simp [List.countP_cons]
  · rw [List.count_append, h3]
    simp

/-- C8, at the start of `main` with the input `y`. -/
theorem C8_full_pass_falls_through_witness :
    (fgets (init "y\n".toList zeroBuf nullTable).tbuf 99
      (init "y\n".toList zeroBuf nullTable).stdin).1.head? = some 'y' ∧
    ∃ s2 added, run [] (init "y\n".toList zeroBuf nullTable) = (s2, .returned 0) ∧
      s2.trace = (init "y\n".toList zeroBuf nullTable).trace ++ added ∧
      added = [.prompt, .allocating] ++ (List.range MAXB).flatMap (fun i =>
        [.xmalloc GB ((init "y\n".toList zeroBuf nullTable).brk + i + 1),
          .memset ((init "y\n".toList zeroBuf nullTable).brk + i + 1)
            (((init "y\n".toList zeroBuf nullTable).iter + 1) % 256) GB,
          .report i]) ∧
      allocs added = 1024 ∧ GB = 2 ^ 30 ∧ frees added = 0 ∧ added.count .prompt = 1 :=
  ⟨by decide, C8_full_pass_falls_through (init "y\n".toList zeroBuf nullTable) (by decide)⟩

/-- C6 on the code: replies `y`, `n`, the trigger inside the third `xmalloc` of the first
pass, and a stack that left a non-null word in the entries of `bufs`.  The release loop
releases the two buffers of the pass and then passes `bufs[2]`, which the pass never
assigned, to `xfree`: the program stops there, after one prompt, with no reclamation notice
and no exit notice. -/
theorem C6_unassigned_entry_released :
    (main "y\nn\n".toList zeroBuf dirtyTable [.atTop 2]).2 = .aborted ∧
    (main "y\nn\n".toList zeroBuf dirtyTable [.atTop 2]).1.trace
      = [.prompt, .allocating, .xmalloc GB 1, .memset 1 1 GB, .report 0,
        .xmalloc GB 2, .memset 2 1 GB, .report 1, .longjmp, .load 0, .xfree 0 1, .load 1,
        .xfree 1 2, .load 2, .xfree 2 7777] ∧
    (main "y\nn\n".toList zeroBuf dirtyTable [.atTop 2]).1.trace.filter Event.isNotice
      = [.prompt] := by
  decide

/-- C3: in the `j`-th pass through `loop:` the counter holds `j mod 256`, and when the
allocation phase of that pass stops (at the end of the table or at a trigger) every one of
the `GB = 2^30` bytes of every buffer allocated and filled in that pass is `j mod 256`. -/
theorem C3_bytes_equal_marker (j : Nat) (s : State) (trig : Option Trigger)
    (h : AtEntry j s) :
    GB = 2 ^ 30 ∧ (pass trig s).1.iter = j % 256 ∧
    ∀ i, i < (pass trig s).1.progress → ∀ off, off < GB →
      (pass trig s).1.mem ((pass trig s).1.bufs i) off = some (j % 256) := by
  obtain ⟨m, e1, e2, e3⟩ := atEntry_inv j s h
  have hi : (pass trig s).1.iter = j % 256 := by
    rw [(pass_trace trig s).2.1, e2, e1]
    omega
  refine ⟨by decide, hi, ?_⟩
  by_cases hy : (fgets s.tbuf 99 s.stdin).1.head? = some 'y'
  · obtain ⟨r, hr, hp | hp⟩ := pass_yes_cases trig s hy
    · rw [hp] at hi ⊢
      intro i hlt off hoff
      have hb := hr.bytes i hlt off hoff
      have hi2 : r.iter = j % 256 := hi
      rw [hi2] at hb
      rw [hb]
      congr 1
      omega
    · rw [hp] at hi ⊢
      intro i hlt off hoff
      have hb := hr.bytes i hlt off hoff
      have hi2 : r.iter = j % 256 := hi
      rw [hi2] at hb
      show r.mem (r.bufs i) off = _
      rw [hb]
      congr 1
      omega
  · rw [pass_no trig s hy]
    intro i hlt
    have hlt2 : i < s.progress := hlt
    omega

/-- C3, in the first pass with the input `y` and the trigger inside the fourth `xmalloc`. -/
theorem C3_bytes_equal_marker_witness :
    AtEntry 1 (init "y\n".toList zeroBuf nullTable) ∧
    (GB = 2 ^ 30 ∧
    (pass (some (.atTop 3)) (init "y\n".toList zeroBuf nullTable)).1.iter = 1 % 256 ∧
    ∀ i, i < (pass (some (.atTop 3)) (init "y\n".toList zeroBuf nullTable)).1.progress →
      ∀ off, off < GB →
      (pass (some (.atTop 3)) (init "y\n".toList zeroBuf nullTable)).1.mem
        ((pass (some (.atTop 3)) (init "y\n".toList zeroBuf nullTable)).1.bufs i) off
        = some (1 % 256)) :=
  ⟨AtEntry.start _ _ _, C3_bytes_equal_marker 1 (init "y\n".toList zeroBuf nullTable)
    (some (.atTop 3)) (AtEntry.start _ _ _)⟩

/-- C7, as amended: the counter is incremented modulo 256 at every arrival at `loop:`,
before the prompt and whatever the reply, and nowhere else.  At the `j`-th arrival it holds
`(j - 1) mod 256`; from there to the end of the pass, and through the recovery branch if
it is taken (however that branch ends), it holds `j mod 256`. -/
theorem C7_iter_follows_loop_entries (j : Nat) (s : State) (trig : Option Trigger)
    (h : AtEntry j s) :
    1 ≤ j ∧ s.iter = (j - 1) % 256 ∧ (pass trig s).1.iter = j % 256 ∧
    (recover (pass trig s).1).1.iter = j % 256 := by
  obtain ⟨m, e1, e2, _⟩ := atEntry_inv j s h
  have hi : (pass trig s).1.iter = j % 256 := by
    rw [(pass_trace trig s).2.1, e2, e1]
    omega
  refine ⟨by omega, ?_, hi, by rw [(recover_cases (pass trig s).1).1, hi]⟩
  rw [e2, e1]
  rfl

/-- C7 as amended, at the first arrival with the input `n`: no affirmative reply, and the
counter goes from `0` to `1`. -/
theorem C7_iter_follows_loop_entries_witness :
    AtEntry 1 (init "n\n".toList zeroBuf nullTable) ∧
    (1 ≤ 1 ∧ (init "n\n".toList zeroBuf nullTable).iter = (1 - 1) % 256 ∧
    (pass none (init "n\n".toList zeroBuf nullTable)).1.iter = 1 % 256 ∧
    (recover (pass none (init "n\n".toList zeroBuf nullTable)).1).1.iter = 1 % 256) :=
  ⟨AtEntry.start _ _ _, C7_iter_follows_loop_entries 1 (init "n\n".toList zeroBuf nullTable)
    none (AtEntry.start _ _ _)⟩

/-- C7 as stated fails, in both halves.  With the input `n` there is no affirmative reply
(the allocation phase is never entered), yet `main` returns with the counter at `1`.  And
some run arrives at `loop:` for the 256th time with the counter at `255`, from where the
pass takes it down to `0`. -/
theorem C7_counter_not_tied_to_replies_nor_monotone :
    ((main "n\n".toList zeroBuf nullTable []).2 = .returned 0 ∧
      (main "n\n".toList zeroBuf nullTable []).1.iter = 1 ∧
      (main "n\n".toList zeroBuf nullTable []).1.trace.count .allocating = 0 ∧
      (main "n\n".toList zeroBuf nullTable []).1.trace = [.prompt, .exiting]) ∧
    ∃ s, AtEntry 256 s ∧ s.iter = 255 ∧ (pass none s).1.iter = 0 := by
  refine ⟨by decide, ?_⟩
  obtain ⟨s, h, _, _⟩ := entry_after_eof 254
  obtain ⟨m, e1, e2, _⟩ := atEntry_inv 256 s h
  have hs : s.iter = 255 := by
    rw [e2]
    omega
  refine ⟨s, h, hs, ?_⟩
  rw [(pass_trace none s).2.1, hs]

/-- C2 on the code: replies `y`, `y`; in the first pass the trigger arrives inside the sixth
`xmalloc` (progress `5`), in the second inside the fourth (progress `3`).  The first
recovery comes to its `goto`.  The second calls `xfree` four times: on the three buffers of
the pass and on `bufs[3]`, which still holds handle `4` of the first pass, released in the
first recovery; the program stops in that fourth call. -/
theorem C2_four_releases_at_progress_three :
    (recover (pass (some (.atTop 5)) (init "y\ny\nn\n".toList zeroBuf nullTable)).1).2
      = .done ∧
    (pass (some (.atTop 3)) (recover (pass (some (.atTop 5))
      (init "y\ny\nn\n".toList zeroBuf nullTable)).1).1).1.progress = 3 ∧
    (recover (pass (some (.atTop 3)) (recover (pass (some (.atTop 5))
      (init "y\ny\nn\n".toList zeroBuf nullTable)).1).1).1).2 = .aborted ∧
    (recover (pass (some (.atTop 3)) (recover (pass (some (.atTop 5))
      (init "y\ny\nn\n".toList zeroBuf nullTable)).1).1).1).1.trace.drop
        (pass (some (.atTop 3)) (recover (pass (some (.atTop 5))
          (init "y\ny\nn\n".toList zeroBuf nullTable)).1).1).1.trace.length
      = [.load 0, .xfree 0 6, .load 1, .xfree 1 7, .load 2, .xfree 2 8, .load 3,
          .xfree 3 4] ∧
    frees ((recover (pass (some (.atTop 3)) (recover (pass (some (.atTop 5))
      (init "y\ny\nn\n".toList zeroBuf nullTable)).1).1).1).1.trace.drop
        (pass (some (.atTop 3)) (recover (pass (some (.atTop 5))
          (init "y\ny\nn\n".toList zeroBuf nullTable)).1).1).1.trace.length) = 4 := by
  decide

/-- C9 on the code: replies `y`, `y`; in the first pass the trigger arrives inside the sixth
`xmalloc`, in the second inside the fourth.  Handle `4`, returned by `xmalloc` once (for
`bufs[3]` in the first pass), is passed to `xfree` twice, once in each recovery; the
program stops in the second of these calls. -/
theorem C9_handle_released_twice :
    (main "y\ny\nn\n".toList zeroBuf nullTable [.atTop 5, .atTop 3]).2 = .aborted ∧
    allocsOfHandle 4 (main "y\ny\nn\n".toList zeroBuf nullTable [.atTop 5, .atTop 3]).1.trace
      = 1 ∧
    freesOfHandle 4 (main "y\ny\nn\n".toList zeroBuf nullTable [.atTop 5, .atTop 3]).1.trace
      = 2 ∧
    (main "y\ny\nn\n".toList zeroBuf nullTable [.atTop 5, .atTop 3]).1.trace.getLast?
      = some (.xfree 3 4) := by
  decide

/-- C4 on the code: the input is `y`, newline, then end of input, and the trigger of the
first pass arrives inside the fourth `xmalloc`.  At the second prompt `fgets` stores nothing,
`tbuf` still starts with the `y` of the first reply, and the program enters the allocation
phase again.  Whatever triggers follow, the run ends (with `main` returning `0` after a
full pass, or stopped in a call of `xfree`) without ever printing the exit notice. -/
theorem C4_end_of_input_after_yes_allocates (trigs : List Trigger) :
    ((main "y\n".toList zeroBuf nullTable (.atTop 3 :: trigs)).2 = .returned 0 ∨
      (main "y\n".toList zeroBuf nullTable (.atTop 3 :: trigs)).2 = .aborted) ∧
    (∃ evs, (main "y\n".toList zeroBuf nullTable (.atTop 3 :: trigs)).1.trace
      = [.prompt, .allocating, .xmalloc GB 1, .memset 1 1 GB, .report 0,
        .xmalloc GB 2, .memset 2 1 GB, .report 1, .xmalloc GB 3, .memset 3 1 GB, .report 2,
        .longjmp, .load 0, .xfree 0 1, .load 1, .xfree 1 2, .load 2, .xfree 2 3, .load 3,
        .freed, .prompt, .allocating] ++ evs) ∧
    Event.exiting ∉ (main "y\n".toList zeroBuf nullTable (.atTop 3 :: trigs)).1.trace := by
  have hj : (pass (some (.atTop 3)) (init "y\n".toList zeroBuf nullTable)).2 = .jumped := by
    decide
  have hd : (recover (pass (some (.atTop 3)) (init "y\n".toList zeroBuf nullTable)).1).2
        = .done ∧
      (recover (pass (some (.atTop 3)) (init "y\n".toList zeroBuf nullTable)).1).1.trace
        = [.prompt, .allocating, .xmalloc GB 1, .memset 1 1 GB, .report 0,
        .xmalloc GB 2, .memset 2 1 GB, .report 1, .xmalloc GB 3, .memset 3 1 GB, .report 2,
        .longjmp, .load 0, .xfree 0 1, .load 1, .xfree 1 2, .load 2, .xfree 2 3, .load 3,
        .freed] ∧
      (recover (pass (some (.atTop 3)) (init "y\n".toList zeroBuf nullTable)).1).1.stdin = [] ∧
      (recover (pass (some (.atTop 3)) (init "y\n".toList zeroBuf nullTable)).1).1.tbuf.head?
        = some 'y' := by
    decide
  obtain ⟨d0, d1, d2, d3⟩ := hd
  have hrun : main "y\n".toList zeroBuf nullTable (.atTop 3 :: trigs)
      = run trigs (recover (pass (some (.atTop 3))
        (init "y\n".toList zeroBuf nullTable)).1).1 :=
    run_cons_jumped (.atTop 3) trigs (init "y\n".toList zeroBuf nullTable)
      (recover (pass (some (.atTop 3)) (init "y\n".toList zeroBuf nullTable)).1).1 hj
      (Prod.ext rfl d0)
  obtain ⟨evs, e2, e3⟩ := run_eof_yes trigs _ d2 d3
  rw [hrun]
  refine ⟨run_total trigs _, ⟨evs, ?_⟩, ?_⟩
  · rw [e2, d1]
    simp
  · rw [e2, d1]
    intro hm
    simp only [List.mem_append, List.mem_cons, reduceCtorEq, List.not_mem_nil, or_false,
      false_or] at hm
    exact e3 hm

/-- C10 on the code: replies `y`, `n`, and the trigger arrives after the last `n++` of the
allocation loop, when `n` is `MAXB = 1024`.  The release loop then evaluates `bufs[1024]`,
one past the last entry of the table, before `main` goes on to the second prompt. -/
theorem C10_release_loop_reads_past_table :
    MAXB = 1024 ∧
    (main "y\nn\n".toList zeroBuf nullTable [.atTop MAXB]).2 = .returned 0 ∧
    Event.load MAXB ∈ (main "y\nn\n".toList zeroBuf nullTable [.atTop MAXB]).1.trace := by
  obtain ⟨evs, bufs, h1, _, h3⟩ := run_yes_full_jump_no (init "y\nn\n".toList zeroBuf nullTable)
    [] (by decide) (by decide) rfl
  refine ⟨rfl, h1, ?_⟩
  rw [main, h3]
  have hm := load_mem_releaseEvents bufs MAXB (MAXB + 1) 0 (Nat.zero_le _) (by omega)
  simp only [List.mem_append]
  left
  right
  exact hm

end Tsj
